import Mathlib

/-!
Verification of the repolib dual-format source model against its source.

Strings are modelled as `List Char`; Python string operations (`strip`,
`split`, `join`, `replace`, slicing) are given faithful executable
counterparts.  Python exceptions are modelled by the `PErr` type; a raise
site becomes an `Except.error`.
-/

set_option maxRecDepth 4000

deriving instance DecidableEq for Except

/-- Convenience conversion from Lean string literals to the char-list model. -/
def str (s : String) : List Char := s.data

/-- Python `str.isspace` on the ASCII whitespace characters. -/
def isPySpace (c : Char) : Bool :=
  c = ' ' || c = '\t' || c = '\n' || c = '\x0b' || c = '\x0c' || c = '\r'

/-- Drops the trailing run of characters satisfying `p` (right half of Python `strip`). -/
def dropTrail (p : Char → Bool) : List Char → List Char
  | [] => []
  | c :: cs =>
    let r := dropTrail p cs
    if r = [] && p c then [] else c :: r

/-- Python `str.strip()`: remove leading and trailing whitespace. -/
def pyStrip (l : List Char) : List Char :=
  dropTrail isPySpace (l.dropWhile isPySpace)

/-- Python `str.strip(ch)` for a one-character strip set. -/
def stripBoth (ch : Char) (l : List Char) : List Char :=
  dropTrail (fun c => c = ch) (l.dropWhile (fun c => c = ch))

/-- Worker for `pySplit`; `acc` holds the current token reversed. -/
def pySplitGo : List Char → List Char → List (List Char)
  | [], acc => if acc = [] then [] else [acc.reverse]
  | c :: cs, acc =>
    if isPySpace c then
      if acc = [] then pySplitGo cs [] else acc.reverse :: pySplitGo cs []
    else pySplitGo cs (c :: acc)

/-- Python `str.split()`: split on whitespace runs, dropping empty tokens. -/
def pySplit (l : List Char) : List (List Char) := pySplitGo l []

/-- Python `str.split(sep)` for a one-character separator: keeps empty parts. -/
def splitOnChar (sep : Char) : List Char → List (List Char)
  | [] => [[]]
  | c :: cs =>
    if c = sep then [] :: splitOnChar sep cs
    else
      match splitOnChar sep cs with
      | [] => [[c]]
      | t :: ts => (c :: t) :: ts

/-- Python `' '.join`: interleave a single space between the given pieces. -/
def joinSp : List (List Char) → List Char
  | [] => []
  | [t] => t
  | t :: t2 :: ts => t ++ ' ' :: joinSp (t2 :: ts)

/-- Python `str.replace(a, b)` for one-character pattern and replacement. -/
def replaceChar (a b : Char) (l : List Char) : List Char :=
  l.map fun c => if c = a then b else c

/-- Fueled worker for Python `str.replace` with a multi-character pattern. -/
def pyReplaceAux (pat repl : List Char) : Nat → List Char → List Char
  | 0, l => l
  | _ + 1, [] => []
  | fuel + 1, c :: cs =>
    if pat ≠ [] && pat.isPrefixOf (c :: cs) then
      repl ++ pyReplaceAux pat repl fuel ((c :: cs).drop pat.length)
    else c :: pyReplaceAux pat repl fuel cs

/-- Python `str.replace(pat, repl)`, left to right, non-overlapping. -/
def pyReplace (pat repl l : List Char) : List Char :=
  pyReplaceAux pat repl l.length l

/-- Python substring containment `pat in l`. -/
def containsSub (pat : List Char) : List Char → Bool
  | [] => pat.isPrefixOf ([] : List Char)
  | c :: cs => pat.isPrefixOf (c :: cs) || containsSub pat cs

/-- Python slice `l[1:-1]`: drop the first and last characters. -/
def pySlice1m1 (l : List Char) : List Char :=
  if l.length ≤ 1 then [] else (l.drop 1).dropLast

/-- First index of an element in a list (Python `list.index`), 0 when absent. -/
def idxOf (l : List (List Char)) (x : List Char) : Nat :=
  match l with
  | [] => 0
  | y :: ys => if y = x then 0 else idxOf ys x + 1

/-- Index of the first occurrence of a character (Python `str.find`), as an option. -/
def findCharIdx (ch : Char) : List Char → Option Nat
  | [] => none
  | c :: cs =>
    if c = ch then some 0
    else (findCharIdx ch cs).map (· + 1)

/-- Association-list lookup used to model Python dictionary reads. -/
def alookup {β : Type} : List (List Char × β) → List Char → Option β
  | [], _ => none
  | (a, b) :: t, k => if k = a then some b else alookup t k

/-- Python dictionary assignment `d[k] = v`: update in place or append. -/
def dictSet (m : List (List Char × List Char)) (k v : List Char) :
    List (List Char × List Char) :=
  if m.any (fun p => p.1 = k) then
    m.map fun p => if p.1 = k then (k, v) else p
  else m ++ [(k, v)]

example : pyStrip (str "  ab c  ") = str "ab c" := by decide
example : pySplit (str " a  bc ") = [str "a", str "bc"] := by decide
example : splitOnChar ',' (str "a,,b") = [str "a", [], str "b"] := by decide
example : joinSp [str "a", [], str "b"] = str "a  b" := by decide
example : pyReplace (str "%5B") (str "[") (str "x%5By") = str "x[y" := by decide
example : pySlice1m1 (str "[ab]") = str "ab" := by decide
example : containsSub (str "cd") (str "abcde") = true := by decide

/-!
Pieces of `repolib.util` used by `source.py` and `parsedeb.py`.  The file
`util.py` is not under `src/`, so these are modelled from the spec.
-/

/-- Modelled from the spec: `util.py` (absent from src/) defines the
`AptSourceEnabled` tri-state result returned by the `enabled` property
(spec section 3: tri-state-resolved boolean), with a `get_bool` accessor
used by the legacy serializer. -/
inductive AptSourceEnabled where
  | TRUE
  | FALSE
deriving DecidableEq

/-- Modelled from the spec: boolean reading of an `AptSourceEnabled` value. -/
def AptSourceEnabled.get_bool : AptSourceEnabled → Bool
  | .TRUE => true
  | .FALSE => false

/-- Modelled from the spec: `util.SourceType` (absent from src/), the
non-empty set of repository types {BINARY, SOURCECODE} (spec section 3)
with one-line keywords `deb` and `deb-src` (spec section 6). -/
inductive SourceType where
  | BINARY
  | SOURCECODE
deriving DecidableEq

/-- Modelled from the spec: the one-line keyword of a source type. -/
def SourceType.value : SourceType → List Char
  | .BINARY => str "deb"
  | .SOURCECODE => str "deb-src"

/-- Modelled from the spec: the `util.SourceType(string)` constructor, which
accepts exactly the two legacy type keywords and raises otherwise. -/
def SourceType.ofString : List Char → Option SourceType
  | s => if s = str "deb" then some .BINARY
         else if s = str "deb-src" then some .SOURCECODE
         else none

/-- Modelled from the spec: `util.true_values` (absent from src/), the set of
affirmative string spellings accepted by the `enabled` setter/getter; the
setter in `source.py` stores the spelling `yes`. -/
def true_values : List (List Char) :=
  [str "True", str "true", str "Yes", str "yes", str "YES", str "y", str "Y"]

/-- Splits a token at the first occurrence of the substring `://`. -/
def urlSepSplit : List Char → Option (List Char × List Char)
  | [] => none
  | c :: cs =>
    if (str "://").isPrefixOf (c :: cs) then some ([], (c :: cs).drop 3)
    else match urlSepSplit cs with
         | none => none
         | some (a, b) => some (c :: a, b)

/-- Modelled from the spec: `util.url_validator` (absent from src/).  The
legacy grammar (spec section 6) requires a URI token such as
`http://example.com/ubuntu`; model validity as containing `://` with a
non-empty scheme before it and a non-empty remainder after it. -/
def url_validator (t : List Char) : Bool :=
  match urlSepSplit t with
  | some (a, b) => a ≠ [] && b ≠ []
  | none => false

example : url_validator (str "http://example.com/ubuntu") = true := by decide
example : url_validator (str "deb") = false := by decide
example : url_validator (str "://x") = false := by decide

/-!
Embedding of `parsedeb.py`.
-/

/-- Python exceptions raised along the paths modelled here, one constructor
per raise site (plus the built-in exceptions the code can run into). -/
inductive PErr where
  | emptyLine (curr : List Char)
  | invalidCommented (curr : List Char)
  | indexError
  | nameNotParsed
  | identNotParsed
  | notEnoughPieces (curr : List Char)
  | invalidType (curr : List Char)
  | cdromUnsupported
  | optionNotValid (key : List Char)
  | unboundLocalError
  | valueError
  | invalidUri (curr uri : List Char)
  | unknownError (curr : List Char)
  | keyError (k : List Char)
  | sourceErrorTooMany (attr : List Char)
  | valueErrorSourceType (s : List Char)
  | typeErrorLenOfMethod
deriving DecidableEq

/-- True when the first character is a hash. -/
def startsHash : List Char → Bool
  | [] => false
  | c :: _ => c = '#'

/-- One iteration of the `strip_hashes` loop body: `strip('#')` then `strip()`. -/
def stripHashesStep (l : List Char) : List Char := pyStrip (stripBoth '#' l)

/-- Fueled unfolding of the `while True` loop of `strip_hashes`. -/
def stripHashesAux : Nat → List Char → List Char
  | 0, l => l
  | n + 1, l =>
    let r := stripHashesStep l
    if startsHash r then stripHashesAux n r else r

/-- The function `strip_hashes` of parsedeb.py; the loop is run with enough
fuel to reach its fixpoint (proved below). -/
def strip_hashes (l : List Char) : List Char := stripHashesAux (l.length + 1) l

/-- The token loop of `parse_name_ident`, one step per whitespace-delimited
token; state is (name_found, ident_found, name, ident, comment). -/
def pniGo : List (List Char) → Bool → Bool → List Char → List Char → List Char →
    List Char × List Char × List Char
  | [], _, _, nm, idt, cm => (nm, idt, cm)
  | item :: rest, nf, idf, nm, idt, cm =>
    let s := stripBoth '#' item
    let isN := (str "X-Repolib-Name:").isPrefixOf s
    let isI := (str "X-Repolib-Ident:").isPrefixOf s
    if item.contains '#' && !isN && !isI then pniGo rest false false nm idt (cm ++ s ++ [' '])
    else if isN then pniGo rest true false nm idt cm
    else if isI then pniGo rest false true nm idt cm
    else if nf then pniGo rest nf idf (nm ++ item ++ [' ']) idt cm
    else if idf then pniGo rest false false nm (idt ++ item) cm
    else pniGo rest nf idf nm idt (cm ++ s ++ [' '])

/-- The function `parse_name_ident` of parsedeb.py. -/
def parse_name_ident (comment : List Char) : Except PErr (List Char × List Char × List Char) :=
  let c0 := strip_hashes comment
  let has_name := containsSub (str "X-Repolib-Name:") c0
  let has_ident := containsSub (str "X-Repolib-Ident") c0
  let r := pniGo (pySplit c0) false false [] [] []
  let name := pyStrip r.1
  let ident := pyStrip r.2.1
  let cmt := pyStrip r.2.2
  if has_name && name.isEmpty then .error .nameNotParsed
  else if has_ident && ident.isEmpty then .error .identNotParsed
  else .ok (name, ident, cmt)

/-- The function `decode_brackets` of parsedeb.py. -/
def decode_brackets (w : List Char) : List Char :=
  pyReplace (str "%5D") (str "]") (pyReplace (str "%5B") (str "[") w)

/-- One step of the loop in `debsplit` that URL-decodes bracket escapes:
`line_list[line_list.index(i)] = decode_brackets(i)` for URL-shaped tokens. -/
def urlPassStep (cur : List (List Char)) (j : Nat) : List (List Char) :=
  match cur[j]? with
  | none => cur
  | some t => if url_validator t then cur.set (idxOf cur t) (decode_brackets t) else cur

/-- The URL-decoding pass of `debsplit` over every index of the token list. -/
def urlPass (ts : List (List Char)) : List (List Char) :=
  (List.range ts.length).foldl urlPassStep ts

/-- The character loop of `debsplit`: split on whitespace except while inside
a `[..]` block; state is (pieces, tmp, p_found). -/
def charScanAux : List Char → List (List Char) → List Char → Bool → List (List Char)
  | [], pieces, tmp, _ => if tmp.length > 0 then pieces ++ [tmp] else pieces
  | c :: cs, pieces, tmp, p =>
    if c = '[' then charScanAux cs pieces (tmp ++ [c]) true
    else if c = ']' then charScanAux cs pieces (tmp ++ [c]) false
    else if isPySpace c && !p then charScanAux cs (pieces ++ [tmp]) [] p
    else charScanAux cs pieces (tmp ++ [c]) p

/-- The function `debsplit` of parsedeb.py. -/
def debsplit (line : List Char) : List (List Char) :=
  let l := pyStrip line
  let toks := urlPass (pySplit l)
  charScanAux (joinSp toks) [] [] false

namespace ParseDeb

/-- The class attribute `ParseDeb.options_d` of parsedeb.py. -/
def options_d : List (List Char × List Char) :=
  [ (str "arch", str "Architectures"),
    (str "lang", str "Languages"),
    (str "target", str "Targets"),
    (str "pdiffs", str "PDiffs"),
    (str "by-hash", str "By-Hash"),
    (str "allow-insecure", str "Allow-Insecure"),
    (str "allow-weak", str "Allow-Weak"),
    (str "allow-downgrade-to-insecure", str "Allow-Downgrade-To-Insecure"),
    (str "trusted", str "Trusted"),
    (str "signed-by", str "Signed-By"),
    (str "check-valid-until", str "Check-Valid-Until"),
    (str "valid-until-min", str "Valid-Until-Min"),
    (str "valid-until-max", str "Valid-Until-Max") ]

end ParseDeb

/-- One iteration of the loop body of `ParseDeb.parse_options`: unpack the
`key=values` group (ValueError unless exactly one `=`), join the
comma-split values with spaces, and look the key up in the table.  The last
argument tracks the most recent binding of the local variable `key`: the
`except KeyError` handler interpolates `key`, which on the first iteration
is unbound (UnboundLocalError) and otherwise still holds the previous
option's value. -/
def parseOptionsStep (opt : List Char) (acc : List (List Char × List Char))
    (lastKey : Option (List Char)) :
    Except PErr (List (List Char × List Char) × Option (List Char)) :=
  match splitOnChar '=' opt with
  | [pre_key, values] =>
    let value := joinSp (splitOnChar ',' values)
    match alookup ParseDeb.options_d pre_key with
    | some key => .ok (dictSet acc key value, some key)
    | none =>
      match lastKey with
      | some k => .error (.optionNotValid k)
      | none => .error .unboundLocalError
  | _ => .error .valueError

/-- The option loop of `ParseDeb.parse_options`. -/
def parseOptionsGo : List (List Char) → List (List Char × List Char) → Option (List Char) →
    Except PErr (List (List Char × List Char))
  | [], acc, _ => .ok acc
  | opt :: rest, acc, lastKey =>
    match parseOptionsStep opt acc lastKey with
    | .ok (acc2, key2) => parseOptionsGo rest acc2 key2
    | .error e => .error e

/-- The method `ParseDeb.parse_options` of parsedeb.py. -/
def parse_options (options : List Char) : Except PErr (List (List Char × List Char)) :=
  let o := pyStrip (pySlice1m1 (pyStrip options))
  parseOptionsGo (pySplit o) [] none

/-- State after the comment-handling part of `ParseDeb.parse_line`: the
stripped current line, the enabled flag, the extracted name/ident/comment,
and the remaining line body to tokenize. -/
structure PreSt where
  curr : List Char
  enabled : Bool
  name : List Char
  ident : List Char
  comment : List Char
  body : List Char
deriving DecidableEq

/-- The dictionary returned by `ParseDeb.parse_line`. -/
structure ParsedLine where
  enabled : Bool
  name : List Char
  ident : List Char
  comment : List Char
  repo_type : List Char
  uri : List Char
  suite : List Char
  components : List (List Char)
  options : List (List Char × List Char)
deriving DecidableEq

/-- The part of `ParseDeb.parse_line` before tokenization: empty-line
rejection, disabled-line recognition and comment extraction. -/
def parse_line_pre (line : List Char) : Except PErr PreSt :=
  let curr := pyStrip line
  if curr = str "#" ∨ curr = [] then .error (.emptyLine curr)
  else
    let step1 : Except PErr (Bool × List Char) :=
      if startsHash line then
        let l2 := strip_hashes line
        match pySplit l2 with
        | [] => .error .indexError
        | p :: _ =>
          if p = str "deb" ∨ p = str "deb-src" then .ok (false, l2)
          else .error (.invalidCommented curr)
      else .ok (true, line)
    match step1 with
    | .error e => .error e
    | .ok (en, l1) =>
      match findCharIdx '#' l1 with
      | some i =>
        if i > 0 then
          match parse_name_ident (l1.drop (i + 1)) with
          | .error e => .error e
          | .ok (nm, idt, cm) => .ok ⟨curr, en, nm, idt, cm, l1.take i⟩
        else .ok ⟨curr, en, [], [], [], l1⟩
      | none => .ok ⟨curr, en, [], [], [], l1⟩

/-- The loop of `ParseDeb.parse_line` that locates the URI index and detects
cdrom entries; `ps` is the token list after popping the type. -/
def cdromScan (ps : List (List Char)) : Bool × Nat :=
  ps.foldl
    (fun st p =>
      if (str "[").isPrefixOf p then
        if containsSub (str "cdrom") p then (true, idxOf ps p) else (st.1, 1)
      else st)
    (false, 0)

/-- The part of `ParseDeb.parse_line` from tokenization onward. -/
def parse_line_main (st : PreSt) : Except PErr ParsedLine :=
  let parts := debsplit st.body
  if parts.length < 3 then .error (.notEnoughPieces st.curr)
  else
    match parts with
    | [] => .error .indexError
    | repo_type :: rest =>
      if ¬(repo_type = str "deb" ∨ repo_type = str "deb-src") then .error (.invalidType st.curr)
      else
        let sc := cdromScan rest
        if sc.1 then .error .cdromUnsupported
        else
          let optsAndRest : Except PErr (List (List Char × List Char) × List (List Char)) :=
            if sc.2 ≠ 0 then
              match rest with
              | [] => .error .indexError
              | o :: r2 =>
                match parse_options o with
                | .error e => .error e
                | .ok m => .ok (m, r2)
            else .ok ([], rest)
          match optsAndRest with
          | .error e => .error e
          | .ok (opts, r2) =>
            match r2 with
            | [] => .error .indexError
            | line_uri :: r3 =>
              if ¬url_validator line_uri then .error (.invalidUri st.curr line_uri)
              else
                match r3 with
                | [] => .error .indexError
                | suite :: comps =>
                  if repo_type ≠ [] ∧ line_uri ≠ [] ∧ suite ≠ [] then
                    .ok ⟨st.enabled, st.name, st.ident, st.comment,
                         repo_type, line_uri, suite, comps, opts⟩
                  else .error (.unknownError st.curr)

/-- The method `ParseDeb.parse_line` of parsedeb.py (with `debug = False`). -/
def parse_line (line : List Char) : Except PErr ParsedLine :=
  match parse_line_pre line with
  | .error e => .error e
  | .ok st => parse_line_main st

example : debsplit (str "deb [arch=amd64,armel] http://example.com/ubuntu focal main") =
    [str "deb", str "[arch=amd64,armel]", str "http://example.com/ubuntu",
     str "focal", str "main"] := by decide
example : strip_hashes (str "## # x #") = str "x" := by decide
example : parse_options (str "[arch=amd64,armel]") =
    .ok [(str "Architectures", str "amd64 armel")] := by decide
example : parse_options (str "[foo=bar]") = .error .unboundLocalError := by decide
example : parse_options (str "[arch=amd64 foo=bar]") =
    .error (.optionNotValid (str "Architectures")) := by decide
example : parse_line (str "deb http://example.com/ubuntu") =
    .error (.notEnoughPieces (str "deb http://example.com/ubuntu")) := by decide
example : parse_line (str "deb http://example.com/ubuntu focal main") =
    .ok ⟨true, [], [], [], str "deb", str "http://example.com/ubuntu",
         str "focal", [str "main"], []⟩ := by decide

/-!
Embedding of `source.py`.  A `Source` is represented by its underlying
Deb822 field dictionary (one optional entry per field the code uses) plus
the `_options` attribute and the comments list; the property getters below
follow the code of source.py.
-/

/-- The underlying state of a `Source` object of source.py. -/
structure Source where
  xRepolibID : Option (List Char)
  xRepolibName : Option (List Char)
  enabledRaw : Option (List Char)
  typesRaw : Option (List Char)
  urisRaw : Option (List Char)
  suitesRaw : Option (List Char)
  componentsRaw : Option (List Char)
  options : List (List Char × List Char)
  comments : List (List Char)
deriving DecidableEq

/-- The `ident` property getter: the `X-Repolib-ID` field, or the empty
string when the key is absent. -/
def Source.ident (s : Source) : List Char := s.xRepolibID.getD []

/-- The `uris` property getter: whitespace-split of the `URIs` field, or
the empty list when the key is absent. -/
def Source.uris (s : Source) : List (List Char) :=
  match s.urisRaw with
  | none => []
  | some v => pySplit v

/-- The `suites` property getter. -/
def Source.suites (s : Source) : List (List Char) :=
  match s.suitesRaw with
  | none => []
  | some v => pySplit v

/-- The `components` property getter. -/
def Source.components (s : Source) : List (List Char) :=
  match s.componentsRaw with
  | none => []
  | some v => pySplit v

/-- The `has_required_parts` property: false as soon as one of `uris`,
`suites`, `ident` has length below one, in that order. -/
def Source.has_required_parts (s : Source) : Bool :=
  if (Source.uris s).length < 1 then false
  else if (Source.suites s).length < 1 then false
  else if (Source.ident s).length < 1 then false
  else true

/-- The `enabled` property getter: absent `Enabled` field reads FALSE;
otherwise TRUE exactly when the stored value is an affirmative spelling
and `has_required_parts` holds. -/
def Source.enabled (s : Source) : AptSourceEnabled :=
  match s.enabledRaw with
  | none => .FALSE
  | some v =>
    if v ∈ true_values ∧ Source.has_required_parts s then .TRUE else .FALSE

/-- Converts the whitespace-split `Types` field through `util.SourceType`,
raising ValueError on an unrecognized keyword, as the `types` getter does. -/
def typesFrom : List (List Char) → Except PErr (List SourceType)
  | [] => .ok []
  | t :: ts =>
    match SourceType.ofString t with
    | none => .error (.valueErrorSourceType t)
    | some st =>
      match typesFrom ts with
      | .ok l => .ok (st :: l)
      | .error e => .error e

/-- The `types` property getter. -/
def Source.types (s : Source) : Except PErr (List SourceType) :=
  match s.typesRaw with
  | none => .ok []
  | some v => typesFrom (pySplit v)

/-- The `name` property getter.  A present non-empty `X-Repolib-Name` is
returned as is; a present empty one is defaulted to the ident (via
`generate_default_name`); an absent key makes `generate_default_name`
evaluate `self[X-Repolib-Name]`, raising KeyError. -/
def Source.nameGet (s : Source) : Except PErr (List Char) :=
  match s.xRepolibName with
  | some n => if n.isEmpty then .ok (Source.ident s) else .ok n
  | none => .error (.keyError (str "X-Repolib-Name"))

/-- The loop of `Source._legacy_options` applied to an options mapping:
emit `key=value` groups (spaces in values replaced by commas), each
followed by one space, skipping empty values. -/
def legacyOptionsOf (opts : List (List Char × List Char)) : List Char :=
  opts.foldl
    (fun acc kv =>
      if kv.2 ≠ [] then acc ++ kv.1 ++ '=' :: replaceChar ' ' ',' kv.2 ++ [' ']
      else acc)
    []

/-- The method `Source._legacy_options` of source.py. -/
def Source.legacy_options (s : Source) : List Char := legacyOptionsOf s.options

/-- The bracketed option group as assembled by `Source._generate_legacy_output`
(lines 744-749 of source.py), taken in isolation: nothing at all when the
option string is empty, otherwise bracket, strip, close bracket. -/
def legacyOptionsBracketed (opts : List (List Char × List Char)) : List Char :=
  let os := legacyOptionsOf opts
  if os = [] then [] else pyStrip ('[' :: os) ++ [']']

/-- The body of `Source._generate_legacy_output` after the `types` getter
has produced `tys`. -/
def generateLegacyChecked (s : Source) (tys : List SourceType) (sourcecode : Bool) :
    Except PErr (List Char) :=
  if tys.length > 1 then .error (.sourceErrorTooMany (str "types"))
  else if (Source.uris s).length > 1 then .error (.sourceErrorTooMany (str "uris"))
  else if (Source.suites s).length > 1 then .error (.sourceErrorTooMany (str "suites"))
  else
    let pre := if (Source.enabled s).get_bool then [] else str "# "
    let typePartE : Except PErr (List Char) :=
      if sourcecode then .ok (str "deb-src ")
      else
        match tys with
        | [] => .error .indexError
        | t :: _ => .ok (t.value ++ [' '])
    match typePartE with
    | .error e => .error e
    | .ok typePart =>
      let acc0 := pre ++ typePart
      let os := Source.legacy_options s
      let acc1 := if os ≠ [] then pyStrip (acc0 ++ '[' :: os) ++ str "] " else acc0
      match Source.uris s with
      | [] => .error .indexError
      | u :: _ =>
        match Source.suites s with
        | [] => .error .indexError
        | su :: _ =>
          let acc2 := acc1 ++ u ++ [' '] ++ su ++ [' ']
          let acc3 := (Source.components s).foldl (fun a c => a ++ c ++ [' ']) acc2
          match Source.nameGet s with
          | .error e => .error e
          | .ok nm =>
            let acc4 := acc3 ++ str " ## X-Repolib-Name: " ++ nm
            let acc5 := acc4 ++ str " # X-Repolib-ID: " ++ Source.ident s
            let acc6 := s.comments.foldl (fun a c => a ++ str " # " ++ c) acc5
            .ok acc6

/-- The method `Source._generate_legacy_output` of source.py: evaluate the
`types` getter (which may raise ValueError), then the checked body. -/
def Source.generate_legacy_output (s : Source) (sourcecode : Bool) : Except PErr (List Char) :=
  match Source.types s with
  | .error e => .error e
  | .ok tys => generateLegacyChecked s tys sourcecode

/-!
Embedding of `SourceFile.add_source` (file.py) and of the enumeration loop
of `get_all_files` (__init__.py).
-/

/-- An entry of `SourceFile.items`: either literal text or a source. -/
inductive FileItem where
  | text (t : List Char)
  | src (s : Source)
deriving DecidableEq

/-- The state of a `SourceFile` object touched by `add_source`. -/
structure SourceFile where
  ident : List Char
  items : List FileItem
  sources : List (Nat × Source)
deriving DecidableEq

/-- The method `SourceFile.add_source` of file.py: it appends the source to
`self.items`, then evaluates `len(self.sources.items) - 1`.  `self.sources`
is a dict, so `self.sources.items` is its bound `items` method (the call
parentheses are missing) and `len` of it raises TypeError; the remaining
statement is never executed.  The result is the mutated object paired with
the raised exception. -/
def SourceFile.add_source (f : SourceFile) (s : Source) : SourceFile × Except PErr Unit :=
  ({ f with items := f.items ++ [.src s] }, .error .typeErrorLenOfMethod)

/-- A file discovered by the registry scan, abstracted as its filename stem
together with the (deterministic) outcome of `SourceFile.load_deb_sources`
on its on-disk content. -/
structure ScanFile (σ ε : Type) where
  stem : List Char
  load : Except ε σ

/-- One enumeration loop of `get_all_files` (__init__.py).  A file whose
load fails has its exception caught, but the handler calls
`load_deb_sources()` once more before recording the error; the repeated
exception is not caught, so the loop aborts with it. -/
def getAllFilesGo {σ ε : Type} (skip_system : Bool) : List (ScanFile σ ε) → Except ε (List σ)
  | [] => .ok []
  | f :: rest =>
    if skip_system ∧ f.stem = str "system" then getAllFilesGo skip_system rest
    else
      match f.load with
      | .ok s =>
        match getAllFilesGo skip_system rest with
        | .ok l => .ok (s :: l)
        | .error e => .error e
      | .error e => .error e

/-- The function `get_all_files` of __init__.py over the discovered
`.sources` and `.list` files: optional system entry, then both loops; on
success the returned error map is empty. -/
def get_all_files {σ ε : Type} (get_system : Bool) (system : σ)
    (sources_files list_files : List (ScanFile σ ε)) :
    Except ε (List σ × List (List Char × ε)) :=
  match getAllFilesGo true sources_files with
  | .error e => .error e
  | .ok a =>
    match getAllFilesGo false list_files with
    | .error e => .error e
    | .ok b => .ok ((if get_system then [system] else []) ++ a ++ b, [])

/-- The options attribute produced by `_update_legacy_options` when none of
the thirteen option fields is set: every short key mapped to the empty
string. -/
def emptyOptions : List (List Char × List Char) :=
  ParseDeb.options_d.map fun kv => (kv.1, [])

/-- A complete, legacy-representable source entity: one type, one URI, one
suite, one component, a name and an ident, enabled, no options set. -/
def c1Source : Source :=
  { xRepolibID := some (str "example"),
    xRepolibName := some (str "Example"),
    enabledRaw := some (str "yes"),
    typesRaw := some (str "deb"),
    urisRaw := some (str "http://example.com/ubuntu"),
    suitesRaw := some (str "focal"),
    componentsRaw := some (str "main"),
    options := emptyOptions,
    comments := [] }

example : Source.generate_legacy_output c1Source false =
    .ok (str "deb http://example.com/ubuntu focal main  ## X-Repolib-Name: Example # X-Repolib-ID: example") := by
  decide
example : parse_line
    (str "deb http://example.com/ubuntu focal main  ## X-Repolib-Name: Example # X-Repolib-ID: example") =
    .ok ⟨true, str "Example", [], str "X-Repolib-ID: example", str "deb",
         str "http://example.com/ubuntu", str "focal", [str "main"], []⟩ := by
  decide

/-!
Claim theorems (with supporting concrete inputs and lemmas).
-/

/-- The legacy line rendered from `c1Source`. -/
def c1Line : List Char :=
  str "deb http://example.com/ubuntu focal main  ## X-Repolib-Name: Example # X-Repolib-ID: example"

/-- The dictionary `ParseDeb.parse_line` returns for `c1Line`. -/
def c1Parsed : ParsedLine :=
  ⟨true, str "Example", [], str "X-Repolib-ID: example", str "deb",
   str "http://example.com/ubuntu", str "focal", [str "main"], []⟩

/-- C1: the claimed legacy round-trip fails on the code.  Rendering the
complete entity `c1Source` emits the ident behind the tag `X-Repolib-ID:`,
but `parse_name_ident` only recognizes the tag `X-Repolib-Ident:`, so
parsing the rendered line back yields an empty ident (the rendered ident
text leaks into the free-text comment instead). -/
theorem c1_legacy_roundtrip_drops_ident :
    Source.generate_legacy_output c1Source false = .ok c1Line ∧
    parse_line c1Line = .ok c1Parsed ∧
    Source.ident c1Source = str "example" ∧
    c1Parsed.name = str "Example" ∧
    c1Parsed.ident = [] ∧
    c1Parsed.ident ≠ Source.ident c1Source ∧
    c1Parsed.comment = str "X-Repolib-ID: example" := by
  decide

/-- An entity whose stored Enabled flag is affirmative but whose uris list
is empty. -/
def c2Flagged : Source :=
  { xRepolibID := some (str "flagged"),
    xRepolibName := some (str "Flagged"),
    enabledRaw := some (str "yes"),
    typesRaw := some (str "deb"),
    urisRaw := none,
    suitesRaw := some (str "focal"),
    componentsRaw := none,
    options := emptyOptions,
    comments := [] }

/-- Unfolding of the `enabled` getter when the `Enabled` key is absent. -/
lemma enabled_raw_none (s : Source) (h : s.enabledRaw = none) :
    Source.enabled s = .FALSE := by
  unfold Source.enabled
  rw [h]

/-- Unfolding of the `enabled` getter when the `Enabled` key is present. -/
lemma enabled_raw_some (s : Source) (v : List Char) (h : s.enabledRaw = some v) :
    Source.enabled s =
      if v ∈ true_values ∧ Source.has_required_parts s then .TRUE else .FALSE := by
  unfold Source.enabled
  rw [h]

/-- C2: the `enabled` property reads TRUE only when `uris`, `suites` and
`ident` are all non-empty; in particular `c2Flagged`, whose stored flag is
affirmative but whose uris list is empty, reads FALSE. -/
theorem c2_enabled_requires_parts :
    (∀ s : Source, Source.enabled s = .TRUE →
      Source.uris s ≠ [] ∧ Source.suites s ≠ [] ∧ Source.ident s ≠ []) ∧
    Source.enabled c2Flagged = .FALSE := by
  constructor
  · intro s h
    rcases hE : s.enabledRaw with _ | v
    · rw [enabled_raw_none s hE] at h
      exact AptSourceEnabled.noConfusion h
    · rw [enabled_raw_some s v hE] at h
      by_cases hc : v ∈ true_values ∧ Source.has_required_parts s
      · have hreq := hc.2
        unfold Source.has_required_parts at hreq
        by_cases h1 : (Source.uris s).length < 1
        · rw [if_pos h1] at hreq; exact absurd hreq (by decide)
        · by_cases h2 : (Source.suites s).length < 1
          · rw [if_neg h1, if_pos h2] at hreq; exact absurd hreq (by decide)
          · by_cases h3 : (Source.ident s).length < 1
            · rw [if_neg h1, if_neg h2, if_pos h3] at hreq; exact absurd hreq (by decide)
            · refine ⟨?_, ?_, ?_⟩
              · intro hnil; rw [hnil] at h1; exact h1 (by decide)
              · intro hnil; rw [hnil] at h2; exact h2 (by decide)
              · intro hnil; rw [hnil] at h3; exact h3 (by decide)
      · rw [if_neg hc] at h; exact AptSourceEnabled.noConfusion h
  · decide

/-- A fully populated, enabled entity used to witness C2. -/
def c2Good : Source := c1Source

/-- Witness for C2: the universal part applied at a concrete entity whose
`enabled` reads TRUE. -/
theorem c2_witness :
    Source.uris c2Good ≠ [] ∧ Source.suites c2Good ≠ [] ∧ Source.ident c2Good ≠ [] :=
  c2_enabled_requires_parts.1 c2Good (by decide)

/-- C4: option decoding does not fail with an unknown-option error naming
the offending key.  On `[foo=bar]` the handler evaluates the unbound local
`key` and raises UnboundLocalError; on `[arch=amd64 foo=bar]` it raises the
parse error naming `Architectures` (the previous option's mapped key)
instead of `foo`. -/
theorem c4_unknown_option_misidentified :
    parse_options (str "[foo=bar]") = .error .unboundLocalError ∧
    parse_options (str "[arch=amd64 foo=bar]") =
      .error (.optionNotValid (str "Architectures")) ∧
    (.error (.optionNotValid (str "Architectures")) :
        Except PErr (List (List Char × List Char))) ≠
      .error (.optionNotValid (str "foo")) := by
  decide

/-- C6: when `types`, `uris` or `suites` holds more than one value, the
legacy serializer fails with the too-many-values SourceError instead of
emitting output. -/
theorem c6_too_many_values_error :
    ∀ (s : Source) (tys : List SourceType), Source.types s = .ok tys →
      tys.length > 1 ∨ (Source.uris s).length > 1 ∨ (Source.suites s).length > 1 →
      ∃ a, Source.generate_legacy_output s false = .error (.sourceErrorTooMany a) := by
  intro s tys hty h
  have hred : Source.generate_legacy_output s false = generateLegacyChecked s tys false := by
    unfold Source.generate_legacy_output
    rw [hty]
  rw [hred]
  unfold generateLegacyChecked
  by_cases h1 : tys.length > 1
  · exact ⟨str "types", by rw [if_pos h1]⟩
  · by_cases h2 : (Source.uris s).length > 1
    · exact ⟨str "uris", by rw [if_neg h1, if_pos h2]⟩
    · have h3 : (Source.suites s).length > 1 := by tauto
      exact ⟨str "suites", by rw [if_neg h1, if_neg h2, if_pos h3]⟩

/-- An entity carrying two URIs. -/
def c6Src : Source :=
  { xRepolibID := some (str "two"),
    xRepolibName := some (str "Two"),
    enabledRaw := some (str "yes"),
    typesRaw := some (str "deb"),
    urisRaw := some (str "http://a.example/x http://b.example/y"),
    suitesRaw := some (str "focal"),
    componentsRaw := some (str "main"),
    options := emptyOptions,
    comments := [] }

/-- Witness for C6 at an entity with two URIs. -/
theorem c6_witness :
    ∃ a, Source.generate_legacy_output c6Src false = .error (.sourceErrorTooMany a) :=
  c6_too_many_values_error c6Src [SourceType.BINARY] (by decide) (by decide)

/-- C7: the line `deb http://example.com/ubuntu` (no suite) is rejected
with the not-enough-pieces ParseDebError; in general, whenever the
pre-tokenization stage succeeds and tokenization leaves fewer than three
pieces, `parse_line` fails with that error. -/
theorem c7_malformed_rejection :
    parse_line (str "deb http://example.com/ubuntu") =
      .error (.notEnoughPieces (str "deb http://example.com/ubuntu")) ∧
    ∀ (line : List Char) (st : PreSt), parse_line_pre line = .ok st →
      (debsplit st.body).length < 3 →
      parse_line line = .error (.notEnoughPieces st.curr) := by
  constructor
  · decide
  · intro line st hpre hlen
    have hred : parse_line line = parse_line_main st := by
      unfold parse_line
      rw [hpre]
    rw [hred]
    simp only [parse_line_main]
    rw [if_pos hlen]

/-- Witness for C7: the universal part applied at a concrete line with two
tokens. -/
theorem c7_witness :
    parse_line (str "deb-src http://c.example/z") =
      .error (.notEnoughPieces (str "deb-src http://c.example/z")) :=
  c7_malformed_rejection.2 (str "deb-src http://c.example/z")
    ⟨str "deb-src http://c.example/z", true, [], [], [], str "deb-src http://c.example/z"⟩
    (by decide) (by decide)

/-- C8: the enumeration loop of `get_all_files` does not isolate a per-file
load failure: with one failing `.sources` file followed by one loadable
file, the whole scan aborts with the failing file's exception, the loadable
file is not included and no error map is returned; without the failing file
the very same loadable file is returned. -/
theorem c8_scan_aborts_on_load_failure :
    get_all_files (σ := Nat) (ε := Nat) false 0
      [⟨str "bad", .error 7⟩, ⟨str "good", .ok 42⟩] [] = .error 7 ∧
    get_all_files (σ := Nat) (ε := Nat) false 0
      [⟨str "good", .ok 42⟩] [] = .ok ([42], []) := by
  decide

/-- C9: `SourceFile.add_source` appends the entity to `items` and then
raises TypeError while computing the sequence number; the `sources` index
and the file ident are untouched and no ident is derived for the entity. -/
theorem c9_add_source_raises_type_error :
    ∀ (f : SourceFile) (s : Source),
      (SourceFile.add_source f s).2 = .error .typeErrorLenOfMethod ∧
      (SourceFile.add_source f s).1.items = f.items ++ [.src s] ∧
      (SourceFile.add_source f s).1.sources = f.sources ∧
      (SourceFile.add_source f s).1.ident = f.ident := by
  intro f s
  exact ⟨rfl, rfl, rfl, rfl⟩

/-- The length of `dropWhile` output never exceeds the input length. -/
lemma length_dropWhile_le' (p : Char → Bool) (l : List Char) :
    (l.dropWhile p).length ≤ l.length := by
  induction l with
  | nil => simp
  | cons c cs ih =>
    rw [List.dropWhile_cons]
    by_cases h : p c = true
    · rw [if_pos h]; simp only [List.length_cons]; omega
    · rw [if_neg h]

/-- The length of `dropTrail` output never exceeds the input length. -/
lemma length_dropTrail_le (p : Char → Bool) (l : List Char) :
    (dropTrail p l).length ≤ l.length := by
  induction l with
  | nil => simp [dropTrail]
  | cons c cs ih =>
    show (if dropTrail p cs = [] && p c then [] else c :: dropTrail p cs).length ≤
      (c :: cs).length
    by_cases hc : dropTrail p cs = [] && p c
    · rw [if_pos hc]; simp
    · rw [if_neg hc]; simp only [List.length_cons]; omega

/-- A non-empty `dropTrail` output starts with the input's first character. -/
lemma dropTrail_cons_head {p : Char → Bool} {l t : List Char} {c : Char}
    (h : dropTrail p l = c :: t) : ∃ t2, l = c :: t2 := by
  cases l with
  | nil => exact absurd h (by simp [dropTrail])
  | cons a as =>
    rw [show dropTrail p (a :: as) =
      (if dropTrail p as = [] && p a then [] else a :: dropTrail p as) from rfl] at h
    by_cases hc : dropTrail p as = [] && p a
    · rw [if_pos hc] at h; exact absurd h (by simp)
    · rw [if_neg hc] at h
      injection h with h1 _
      exact ⟨as, by rw [h1]⟩

/-- A non-empty `dropWhile` output starts with a character failing `p`. -/
lemma dropWhile_cons_head {p : Char → Bool} {l t : List Char} {c : Char}
    (h : l.dropWhile p = c :: t) : p c = false := by
  induction l with
  | nil => exact absurd h (by simp)
  | cons a as ih =>
    by_cases hpa : p a = true
    · rw [List.dropWhile_cons, if_pos hpa] at h
      exact ih h
    · rw [List.dropWhile_cons, if_neg hpa] at h
      injection h with h1 _
      subst h1
      exact Bool.eq_false_iff.mpr hpa

/-- The head of `stripBoth '#'` output is never a hash. -/
lemma stripBoth_head_ne {l t : List Char} {c : Char}
    (h : stripBoth '#' l = c :: t) : c ≠ '#' := by
  obtain ⟨t2, hd⟩ := dropTrail_cons_head h
  have hpc := dropWhile_cons_head hd
  intro hc
  subst hc
  simp at hpc

/-- A loop iteration of `strip_hashes` that continues (its result still
starts with a hash) strictly shortens the string. -/
lemma stripHashesStep_shrinks (l : List Char)
    (h : startsHash (stripHashesStep l) = true) :
    (stripHashesStep l).length < l.length := by
  rcases hr : stripHashesStep l with _ | ⟨c, t⟩
  · rw [hr] at h; exact absurd h (by decide)
  · rw [hr] at h
    have hc : c = '#' := by simpa [startsHash] using h
    subst hc
    have hr2 : dropTrail isPySpace ((stripBoth '#' l).dropWhile isPySpace) = '#' :: t := hr
    obtain ⟨t2, hd⟩ := dropTrail_cons_head hr2
    rcases hm : stripBoth '#' l with _ | ⟨a, m2⟩
    · rw [hm] at hd; exact absurd hd (by simp)
    · by_cases hws : isPySpace a = true
      · have l1 : ('#' :: t).length ≤ ((stripBoth '#' l).dropWhile isPySpace).length := by
          rw [← hr2]; exact length_dropTrail_le _ _
        have l2 : ((stripBoth '#' l).dropWhile isPySpace).length ≤ m2.length := by
          rw [hm, List.dropWhile_cons, if_pos hws]
          exact length_dropWhile_le' _ _
        have l3 : (stripBoth '#' l).length = m2.length + 1 := by
          rw [hm]; rfl
        have l4 : (stripBoth '#' l).length ≤ l.length := by
          unfold stripBoth
          calc (dropTrail (fun c => c = '#') (l.dropWhile fun c => c = '#')).length
              ≤ (l.dropWhile fun c => c = '#').length := length_dropTrail_le _ _
            _ ≤ l.length := length_dropWhile_le' _ _
        omega
      · rw [hm, List.dropWhile_cons, if_neg hws] at hd
        injection hd with h1 _
        exact absurd h1 (stripBoth_head_ne hm)

/-- The output of `dropTrail` has no trailing run left to drop. -/
lemma dropTrail_idem (p : Char → Bool) (l : List Char) :
    dropTrail p (dropTrail p l) = dropTrail p l := by
  induction l with
  | nil => rfl
  | cons c cs ih =>
    show dropTrail p (if dropTrail p cs = [] && p c then [] else c :: dropTrail p cs) =
      (if dropTrail p cs = [] && p c then [] else c :: dropTrail p cs)
    by_cases hc : dropTrail p cs = [] && p c
    · rw [if_pos hc]; rfl
    · rw [if_neg hc]
      show (if dropTrail p (dropTrail p cs) = [] && p c then []
            else c :: dropTrail p (dropTrail p cs)) = c :: dropTrail p cs
      rw [ih, if_neg hc]

/-- The output of `pyStrip` has no leading whitespace. -/
lemma dropWhile_pyStrip (l : List Char) :
    (pyStrip l).dropWhile isPySpace = pyStrip l := by
  rcases h : pyStrip l with _ | ⟨c, t⟩
  · rfl
  · unfold pyStrip at h
    obtain ⟨t2, hd⟩ := dropTrail_cons_head h
    have hpc := dropWhile_cons_head hd
    rw [List.dropWhile_cons, if_neg (by simp [hpc])]

/-- Stripping whitespace twice is the same as stripping once. -/
lemma pyStrip_idem (l : List Char) : pyStrip (pyStrip l) = pyStrip l := by
  show dropTrail isPySpace ((pyStrip l).dropWhile isPySpace) = pyStrip l
  rw [dropWhile_pyStrip]
  show dropTrail isPySpace (dropTrail isPySpace (l.dropWhile isPySpace)) = pyStrip l
  rw [dropTrail_idem]
  rfl

/-- With fuel exceeding the string length, the `strip_hashes` loop reaches
its fixpoint: the result has no leading hash, is fully stripped, and does
not depend on the exact fuel. -/
lemma stripHashesAux_spec :
    ∀ (n : Nat) (l : List Char), l.length < n →
      startsHash (stripHashesAux n l) = false ∧
      pyStrip (stripHashesAux n l) = stripHashesAux n l ∧
      ∀ m, l.length < m → stripHashesAux m l = stripHashesAux n l := by
  intro n
  induction n with
  | zero => intro l h; exact absurd h (Nat.not_lt_zero _)
  | succ n ih =>
    intro l hl
    have hstep : stripHashesAux (n + 1) l =
        if startsHash (stripHashesStep l) then stripHashesAux n (stripHashesStep l)
        else stripHashesStep l := rfl
    by_cases hc : startsHash (stripHashesStep l) = true
    · have hlt := stripHashesStep_shrinks l hc
      have hn : (stripHashesStep l).length < n := by omega
      obtain ⟨h1, h2, h3⟩ := ih (stripHashesStep l) hn
      rw [hstep, if_pos hc]
      refine ⟨h1, h2, ?_⟩
      intro m hm
      obtain ⟨m2, rfl⟩ : ∃ m2, m = m2 + 1 := ⟨m - 1, by omega⟩
      have hstep2 : stripHashesAux (m2 + 1) l =
          if startsHash (stripHashesStep l) then stripHashesAux m2 (stripHashesStep l)
          else stripHashesStep l := rfl
      rw [hstep2, if_pos hc, h3 m2 (by omega)]
    · rw [hstep, if_neg hc]
      have hb : startsHash (stripHashesStep l) = false := by
        cases hx : startsHash (stripHashesStep l)
        · rfl
        · exact absurd hx hc
      refine ⟨hb, pyStrip_idem _, ?_⟩
      intro m hm
      obtain ⟨m2, rfl⟩ : ∃ m2, m = m2 + 1 := ⟨m - 1, by omega⟩
      have hstep2 : stripHashesAux (m2 + 1) l =
          if startsHash (stripHashesStep l) then stripHashesAux m2 (stripHashesStep l)
          else stripHashesStep l := rfl
      rw [hstep2, if_neg hc]

/-- C10: each `strip_hashes` loop iteration that continues strictly
shortens the string (hence the loop terminates within length-many steps,
and extra fuel does not change the result), and the final result has no
leading hash and no leading or trailing whitespace. -/
theorem c10_strip_hashes_terminates :
    (∀ l : List Char, startsHash (stripHashesStep l) = true →
      (stripHashesStep l).length < l.length) ∧
    (∀ l : List Char, startsHash (strip_hashes l) = false ∧
      pyStrip (strip_hashes l) = strip_hashes l) ∧
    (∀ (l : List Char) (n : Nat), l.length < n → stripHashesAux n l = strip_hashes l) := by
  refine ⟨stripHashesStep_shrinks, ?_, ?_⟩
  · intro l
    obtain ⟨h1, h2, _⟩ := stripHashesAux_spec (l.length + 1) l (by omega)
    exact ⟨h1, h2⟩
  · intro l n hn
    obtain ⟨_, _, h3⟩ := stripHashesAux_spec (l.length + 1) l (by omega)
    exact h3 n hn

/-- Witness for C10: the strict decrease at a concrete continuing input and
fuel-independence at a concrete line and fuel. -/
theorem c10_witness :
    (stripHashesStep (str "# # x")).length < (str "# # x").length ∧
    stripHashesAux 9 (str "## y") = strip_hashes (str "## y") :=
  ⟨c10_strip_hashes_terminates.1 (str "# # x") (by decide),
   c10_strip_hashes_terminates.2.2 (str "## y") 9 (by decide)⟩

/-!
C3: the tokenizer.  `specMergeFrom` is the spec-side reading of section 4.1
("an ordered sequence of whitespace-delimited tokens, EXCEPT that a
bracketed substring is treated as one token even if it contains internal
whitespace"): whitespace-split tokens are emitted one by one, except that
while a bracket group is open, following tokens are merged into it with a
single space.  The refinement theorem proves `debsplit` computes exactly
this token-level merge for every input line.
-/

/-- Bracket state after reading one token: `[` opens, `]` closes. -/
def tokState (p : Bool) : List Char → Bool
  | [] => p
  | c :: cs => tokState (if c = '[' then true else if c = ']' then false else p) cs

/-- Token-level merge of whitespace-delimited tokens: while the bracket
state is open, following tokens are joined into the current one with a
single space; otherwise each token is emitted on its own. -/
def specMergeFrom : Bool → List Char → List (List Char) → List (List Char) → List (List Char)
  | _, tmp, pieces, [] => if tmp.length > 0 then pieces ++ [tmp] else pieces
  | _, tmp, pieces, [t] =>
    let tmp2 := tmp ++ t
    if tmp2.length > 0 then pieces ++ [tmp2] else pieces
  | p, tmp, pieces, t :: t2 :: ts =>
    let p2 := tokState p t
    if p2 then specMergeFrom p2 (tmp ++ t ++ [' ']) pieces (t2 :: ts)
    else specMergeFrom p2 [] (pieces ++ [tmp ++ t]) (t2 :: ts)

/-- The spec-side tokenizer: whitespace split (after the same URL-decoding
pass the code performs on URL-shaped tokens), then the bracket-aware merge. -/
def specTokenize (line : List Char) : List (List Char) :=
  specMergeFrom false [] [] (urlPass (pySplit (pyStrip line)))

/-- Unfolding of one `charScanAux` step. -/
lemma charScanAux_cons (c : Char) (cs : List Char) (pieces : List (List Char))
    (tmp : List Char) (p : Bool) :
    charScanAux (c :: cs) pieces tmp p =
      if c = '[' then charScanAux cs pieces (tmp ++ [c]) true
      else if c = ']' then charScanAux cs pieces (tmp ++ [c]) false
      else if isPySpace c && !p then charScanAux cs (pieces ++ [tmp]) [] p
      else charScanAux cs pieces (tmp ++ [c]) p := rfl

/-- Unfolding of one `tokState` step. -/
lemma tokState_cons (p : Bool) (c : Char) (cs : List Char) :
    tokState p (c :: cs) =
      tokState (if c = '[' then true else if c = ']' then false else p) cs := rfl

/-- Scanning a whitespace-free token just appends it to the current piece
and updates the bracket state. -/
lemma charScanAux_token (t : List Char) :
    ∀ (rest : List Char) (pieces : List (List Char)) (tmp : List Char) (p : Bool),
      (∀ c ∈ t, isPySpace c = false) →
      charScanAux (t ++ rest) pieces tmp p =
        charScanAux rest pieces (tmp ++ t) (tokState p t) := by
  induction t with
  | nil => intro rest pieces tmp p _; simp [tokState]
  | cons c cs ih =>
    intro rest pieces tmp p h
    have hc : isPySpace c = false := h c (List.mem_cons_self c cs)
    have hcs : ∀ x ∈ cs, isPySpace x = false := fun x hx => h x (List.mem_cons_of_mem c hx)
    rw [List.cons_append, charScanAux_cons, tokState_cons]
    by_cases h1 : c = '['
    · rw [if_pos h1, if_pos h1, ih rest pieces (tmp ++ [c]) true hcs,
        List.append_assoc, List.singleton_append]
    · by_cases h2 : c = ']'
      · rw [if_neg h1, if_neg h1, if_pos h2, if_pos h2,
          ih rest pieces (tmp ++ [c]) false hcs,
          List.append_assoc, List.singleton_append]
      · rw [if_neg h1, if_neg h1, if_neg h2, if_neg h2,
          if_neg (show ¬((isPySpace c && !p) = true) by simp [hc]),
          ih rest pieces (tmp ++ [c]) p hcs,
          List.append_assoc, List.singleton_append]

/-- The character scan of the single-space join of whitespace-free tokens
is the token-level merge. -/
lemma charScanAux_joinSp (ts : List (List Char)) :
    ∀ (pieces : List (List Char)) (tmp : List Char) (p : Bool),
      (∀ t ∈ ts, ∀ c ∈ t, isPySpace c = false) →
      charScanAux (joinSp ts) pieces tmp p = specMergeFrom p tmp pieces ts := by
  induction ts with
  | nil => intro pieces tmp p _; rfl
  | cons t ts ih =>
    intro pieces tmp p h
    have ht : ∀ c ∈ t, isPySpace c = false := h t (List.mem_cons_self t ts)
    have hts : ∀ x ∈ ts, ∀ c ∈ x, isPySpace c = false :=
      fun x hx => h x (List.mem_cons_of_mem t hx)
    cases ts with
    | nil =>
      have h0 := charScanAux_token t [] pieces tmp p ht
      rw [List.append_nil] at h0
      rw [show joinSp [t] = t from rfl, h0]
      rfl
    | cons t2 ts2 =>
      show charScanAux (t ++ ' ' :: joinSp (t2 :: ts2)) pieces tmp p = _
      rw [charScanAux_token t (' ' :: joinSp (t2 :: ts2)) pieces tmp p ht, charScanAux_cons,
        if_neg (by decide : ¬(' ' = '[')), if_neg (by decide : ¬(' ' = ']'))]
      by_cases hp : tokState p t = true
      · rw [if_neg (show ¬((isPySpace ' ' && !tokState p t) = true) by rw [hp]; decide),
          ih pieces (tmp ++ t ++ [' ']) (tokState p t) hts]
        rw [show specMergeFrom p tmp pieces (t :: t2 :: ts2) =
          (if tokState p t then
            specMergeFrom (tokState p t) (tmp ++ t ++ [' ']) pieces (t2 :: ts2)
          else specMergeFrom (tokState p t) [] (pieces ++ [tmp ++ t]) (t2 :: ts2)) from rfl,
          if_pos hp]
      · rw [if_pos (show (isPySpace ' ' && !tokState p t) = true by
            rw [Bool.eq_false_iff.mpr hp]; decide),
          ih (pieces ++ [tmp ++ t]) [] (tokState p t) hts]
        rw [show specMergeFrom p tmp pieces (t :: t2 :: ts2) =
          (if tokState p t then
            specMergeFrom (tokState p t) (tmp ++ t ++ [' ']) pieces (t2 :: ts2)
          else specMergeFrom (tokState p t) [] (pieces ++ [tmp ++ t]) (t2 :: ts2)) from rfl,
          if_neg hp]

/-- Every token produced by the whitespace splitter is whitespace-free
(provided the accumulator holds no whitespace). -/
lemma pySplitGo_tokens (l : List Char) :
    ∀ acc, (∀ c ∈ acc, isPySpace c = false) →
      ∀ t ∈ pySplitGo l acc, ∀ c ∈ t, isPySpace c = false := by
  induction l with
  | nil =>
    intro acc hacc t ht c hc
    rw [show pySplitGo [] acc = (if acc = [] then [] else [acc.reverse]) from rfl] at ht
    by_cases h : acc = []
    · rw [if_pos h] at ht
      exact absurd ht (by simp)
    · rw [if_neg h] at ht
      have : t = acc.reverse := by simpa using ht
      subst this
      exact hacc c (List.mem_reverse.mp hc)
  | cons d ds ih =>
    intro acc hacc t ht c hc
    rw [show pySplitGo (d :: ds) acc =
      (if isPySpace d then
        (if acc = [] then pySplitGo ds [] else acc.reverse :: pySplitGo ds [])
      else pySplitGo ds (d :: acc)) from rfl] at ht
    by_cases hd : isPySpace d = true
    · rw [if_pos hd] at ht
      by_cases h : acc = []
      · rw [if_pos h] at ht
        exact ih [] (by simp) t ht c hc
      · rw [if_neg h] at ht
        rcases List.mem_cons.mp ht with h1 | h1
        · subst h1
          exact hacc c (List.mem_reverse.mp hc)
        · exact ih [] (by simp) t h1 c hc
    · have hd2 : isPySpace d = false := Bool.eq_false_iff.mpr hd
      rw [if_neg hd] at ht
      refine ih (d :: acc) ?_ t ht c hc
      intro x hx
      rcases List.mem_cons.mp hx with h1 | h1
      · rw [h1]; exact hd2
      · exact hacc x h1

/-- An element of `l.set i a` is an element of `l` or equals `a`. -/
lemma mem_set_cases {x a : List Char} :
    ∀ (l : List (List Char)) (i : Nat), x ∈ l.set i a → x ∈ l ∨ x = a := by
  intro l
  induction l with
  | nil => intro i h; exact absurd h (by simp)
  | cons b bs ih =>
    intro i h
    cases i with
    | zero =>
      rw [List.set_cons_zero] at h
      rcases List.mem_cons.mp h with h1 | h1
      · exact Or.inr h1
      · exact Or.inl (List.mem_cons_of_mem b h1)
    | succ n =>
      rw [List.set_cons_succ] at h
      rcases List.mem_cons.mp h with h1 | h1
      · exact Or.inl (by rw [h1]; exact List.mem_cons_self b bs)
      · rcases ih n h1 with h2 | h2
        · exact Or.inl (List.mem_cons_of_mem b h2)
        · exact Or.inr h2

/-- Characters of a `pyReplaceAux` output come from the replacement or the
input. -/
lemma mem_pyReplaceAux {pat repl : List Char} :
    ∀ (n : Nat) (l : List Char) (c : Char),
      c ∈ pyReplaceAux pat repl n l → c ∈ repl ∨ c ∈ l := by
  intro n
  induction n with
  | zero => intro l c h; exact Or.inr h
  | succ n ih =>
    intro l c h
    cases l with
    | nil => exact absurd h (by simp [pyReplaceAux])
    | cons d ds =>
      rw [show pyReplaceAux pat repl (n + 1) (d :: ds) =
        (if pat ≠ [] && pat.isPrefixOf (d :: ds) then
          repl ++ pyReplaceAux pat repl n ((d :: ds).drop pat.length)
        else d :: pyReplaceAux pat repl n ds) from rfl] at h
      by_cases hc : (pat ≠ [] && pat.isPrefixOf (d :: ds)) = true
      · rw [if_pos hc] at h
        rcases List.mem_append.mp h with h1 | h1
        · exact Or.inl h1
        · rcases ih _ c h1 with h2 | h2
          · exact Or.inl h2
          · exact Or.inr (List.mem_of_mem_drop h2)
      · rw [if_neg hc] at h
        rcases List.mem_cons.mp h with h1 | h1
        · exact Or.inr (by rw [h1]; exact List.mem_cons_self d ds)
        · rcases ih ds c h1 with h2 | h2
          · exact Or.inl h2
          · exact Or.inr (List.mem_cons_of_mem d h2)

/-- `decode_brackets` preserves whitespace-freeness. -/
lemma decode_brackets_ws (t : List Char) (h : ∀ c ∈ t, isPySpace c = false) :
    ∀ c ∈ decode_brackets t, isPySpace c = false := by
  intro c hc
  unfold decode_brackets pyReplace at hc
  rcases mem_pyReplaceAux _ _ c hc with h1 | h1
  · have : c = ']' := by simpa [str] using h1
    rw [this]; decide
  · rcases mem_pyReplaceAux _ _ c h1 with h2 | h2
    · have : c = '[' := by simpa [str] using h2
      rw [this]; decide
    · exact h c h2

/-- Unfolding of `urlPassStep` when the index is out of range. -/
lemma urlPassStep_none {cur : List (List Char)} {j : Nat} (h : cur[j]? = none) :
    urlPassStep cur j = cur := by
  unfold urlPassStep
  rw [h]

/-- Unfolding of `urlPassStep` when the index is in range. -/
lemma urlPassStep_some {cur : List (List Char)} {j : Nat} {u : List Char}
    (h : cur[j]? = some u) :
    urlPassStep cur j =
      if url_validator u then cur.set (idxOf cur u) (decode_brackets u) else cur := by
  unfold urlPassStep
  rw [h]

/-- An in-range indexed element of a list is a member. -/
lemma mem_of_getElem_some {l : List (List Char)} {j : Nat} {u : List Char}
    (h : l[j]? = some u) : u ∈ l := by
  induction l generalizing j with
  | nil => exact absurd h (by simp)
  | cons b bs ih =>
    cases j with
    | zero =>
      rw [List.getElem?_cons_zero] at h
      injection h with h1
      rw [← h1]
      exact List.mem_cons_self b bs
    | succ n =>
      rw [List.getElem?_cons_succ] at h
      exact List.mem_cons_of_mem b (ih h)

/-- The URL-decoding pass preserves whitespace-freeness of every token. -/
lemma urlPass_tokens (ts : List (List Char))
    (h : ∀ t ∈ ts, ∀ c ∈ t, isPySpace c = false) :
    ∀ t ∈ urlPass ts, ∀ c ∈ t, isPySpace c = false := by
  have main : ∀ (js : List Nat) (cur : List (List Char)),
      (∀ t ∈ cur, ∀ c ∈ t, isPySpace c = false) →
      ∀ t ∈ js.foldl urlPassStep cur, ∀ c ∈ t, isPySpace c = false := by
    intro js
    induction js with
    | nil => intro cur hcur; exact hcur
    | cons j js ih =>
      intro cur hcur
      rw [List.foldl_cons]
      refine ih (urlPassStep cur j) ?_
      intro t ht
      rcases hg : cur[j]? with _ | u
      · rw [urlPassStep_none hg] at ht
        exact hcur t ht
      · rw [urlPassStep_some hg] at ht
        by_cases hu : url_validator u = true
        · rw [if_pos hu] at ht
          rcases mem_set_cases _ _ ht with h1 | h1
          · exact hcur t h1
          · rw [h1]
            exact decode_brackets_ws u (hcur u (mem_of_getElem_some hg))
        · rw [if_neg hu] at ht
          exact hcur t ht
  exact main _ ts h

/-- C3: the tokenizer keeps the concrete bracketed example as five tokens,
and on every input line `debsplit` agrees with the spec-side tokenizer
(whitespace-delimited tokens, a bracketed group merged into one token). -/
theorem c3_debsplit_tokenizer :
    debsplit (str "deb [arch=amd64,armel] http://example.com/ubuntu focal main") =
      [str "deb", str "[arch=amd64,armel]", str "http://example.com/ubuntu",
       str "focal", str "main"] ∧
    ∀ line : List Char, debsplit line = specTokenize line := by
  constructor
  · decide
  · intro line
    unfold debsplit specTokenize
    exact charScanAux_joinSp _ _ _ _
      (urlPass_tokens _ (pySplitGo_tokens (pyStrip line) [] (by simp)))

/-!
C5: the option codec.  The encoder emits short keys; the decoder maps them
to long field names, so decode after encode is key-renaming, not identity.
-/

/-- `splitOnChar` never returns the empty list. -/
lemma splitOnChar_ne_nil (sep : Char) : ∀ l : List Char, splitOnChar sep l ≠ [] := by
  intro l
  induction l with
  | nil => simp [splitOnChar]
  | cons c cs ih =>
    rw [show splitOnChar sep (c :: cs) =
      (if c = sep then [] :: splitOnChar sep cs
       else match splitOnChar sep cs with
            | [] => [[c]]
            | t :: ts => (c :: t) :: ts) from rfl]
    by_cases hc : c = sep
    · rw [if_pos hc]; simp
    · rw [if_neg hc]
      rcases hs : splitOnChar sep cs with _ | ⟨t, ts⟩
      · simp
      · simp

/-- Splitting a separator-free string yields one part. -/
lemma splitOnChar_no_sep (sep : Char) :
    ∀ l : List Char, (∀ c ∈ l, c ≠ sep) → splitOnChar sep l = [l] := by
  intro l
  induction l with
  | nil => intro _; rfl
  | cons c cs ih =>
    intro h
    have hc : c ≠ sep := h c (List.mem_cons_self c cs)
    have hcs : ∀ x ∈ cs, x ≠ sep := fun x hx => h x (List.mem_cons_of_mem c hx)
    rw [show splitOnChar sep (c :: cs) =
      (if c = sep then [] :: splitOnChar sep cs
       else match splitOnChar sep cs with
            | [] => [[c]]
            | t :: ts => (c :: t) :: ts) from rfl, if_neg hc, ih hcs]

/-- Splitting at the unique separator position: the separator-free head
becomes the first part. -/
lemma splitOnChar_mid (sep : Char) :
    ∀ (k rv : List Char), (∀ c ∈ k, c ≠ sep) →
      splitOnChar sep (k ++ sep :: rv) = k :: splitOnChar sep rv := by
  intro k
  induction k with
  | nil => intro rv _; simp [splitOnChar]
  | cons c k2 ih =>
    intro rv h
    have hc : c ≠ sep := h c (List.mem_cons_self c k2)
    have hk2 : ∀ x ∈ k2, x ≠ sep := fun x hx => h x (List.mem_cons_of_mem c hx)
    rw [List.cons_append,
      show splitOnChar sep (c :: (k2 ++ sep :: rv)) =
        (if c = sep then [] :: splitOnChar sep (k2 ++ sep :: rv)
         else match splitOnChar sep (k2 ++ sep :: rv) with
              | [] => [[c]]
              | t :: ts => (c :: t) :: ts) from rfl,
      if_neg hc, ih rv hk2]

/-- A character of a `replaceChar` output is the replacement or an
untouched input character. -/
lemma mem_replaceChar {a b : Char} {v : List Char} {c : Char}
    (h : c ∈ replaceChar a b v) : c = b ∨ (c ∈ v ∧ c ≠ a) := by
  unfold replaceChar at h
  rcases List.mem_map.mp h with ⟨d, hd, hfd⟩
  by_cases hda : d = a
  · rw [if_pos hda] at hfd
    exact Or.inl hfd.symm
  · rw [if_neg hda] at hfd
    rw [← hfd]
    exact Or.inr ⟨hd, hda⟩

/-- Comma-splitting then space-joining undoes the space-to-comma encoding
of a comma-free value. -/
lemma joinSp_splitComma_replace :
    ∀ v : List Char, (∀ c ∈ v, c ≠ ',') →
      joinSp (splitOnChar ',' (replaceChar ' ' ',' v)) = v := by
  intro v
  induction v with
  | nil => intro _; rfl
  | cons c v2 ih =>
    intro h
    have hc : c ≠ ',' := h c (List.mem_cons_self c v2)
    have hv2 : ∀ x ∈ v2, x ≠ ',' := fun x hx => h x (List.mem_cons_of_mem c hx)
    rw [show replaceChar ' ' ',' (c :: v2) =
      (if c = ' ' then ',' else c) :: replaceChar ' ' ',' v2 from rfl]
    by_cases hsp : c = ' '
    · rw [if_pos hsp,
        show splitOnChar ',' (',' :: replaceChar ' ' ',' v2) =
          [] :: splitOnChar ',' (replaceChar ' ' ',' v2) from rfl]
      rcases hs : splitOnChar ',' (replaceChar ' ' ',' v2) with _ | ⟨t, ts⟩
      · exact absurd hs (splitOnChar_ne_nil ',' _)
      · rw [show joinSp ([] :: t :: ts) = [] ++ ' ' :: joinSp (t :: ts) from rfl]
        rw [← hs, ih hv2]
        rw [hsp]
        rfl
    · rw [if_neg hsp]
      have hcc : ¬((if c = ' ' then ',' else c) = ',') := by rw [if_neg hsp]; exact hc
      rw [show splitOnChar ',' (c :: replaceChar ' ' ',' v2) =
        (if c = ',' then [] :: splitOnChar ',' (replaceChar ' ' ',' v2)
         else match splitOnChar ',' (replaceChar ' ' ',' v2) with
              | [] => [[c]]
              | t :: ts => (c :: t) :: ts) from rfl, if_neg hc]
      rcases hs : splitOnChar ',' (replaceChar ' ' ',' v2) with _ | ⟨t, ts⟩
      · exact absurd hs (splitOnChar_ne_nil ',' _)
      · rw [hs] at ih
        cases ts with
        | nil =>
          have ht : t = v2 := by simpa using ih hv2
          rw [show joinSp [c :: t] = c :: t from rfl, ht]
        | cons t2 ts2 =>
          rw [show joinSp ((c :: t) :: t2 :: ts2) = (c :: t) ++ ' ' :: joinSp (t2 :: ts2) from rfl]
          have := ih hv2
          rw [show joinSp (t :: t2 :: ts2) = t ++ ' ' :: joinSp (t2 :: ts2) from rfl] at this
          rw [List.cons_append, this]

/-- `dropTrail` leaves a list without characters satisfying `p` unchanged. -/
lemma dropTrail_of_none (p : Char → Bool) :
    ∀ l : List Char, (∀ c ∈ l, p c = false) → dropTrail p l = l := by
  intro l
  induction l with
  | nil => intro _; rfl
  | cons c cs ih =>
    intro h
    have hc : p c = false := h c (List.mem_cons_self c cs)
    have hcs : ∀ x ∈ cs, p x = false := fun x hx => h x (List.mem_cons_of_mem c hx)
    show (if dropTrail p cs = [] && p c then [] else c :: dropTrail p cs) = c :: cs
    rw [ih hcs, if_neg (by simp [hc])]

/-- How `dropTrail` distributes over an append. -/
lemma dropTrail_append (p : Char → Bool) :
    ∀ xs ys : List Char,
      dropTrail p (xs ++ ys) =
        if dropTrail p ys = [] then dropTrail p xs else xs ++ dropTrail p ys := by
  intro xs
  induction xs with
  | nil =>
    intro ys
    by_cases h : dropTrail p ys = []
    · rw [if_pos h, List.nil_append, h]; rfl
    · rw [if_neg h, List.nil_append, List.nil_append]
  | cons c cs ih =>
    intro ys
    rw [List.cons_append,
      show dropTrail p (c :: (cs ++ ys)) =
        (if dropTrail p (cs ++ ys) = [] && p c then [] else c :: dropTrail p (cs ++ ys)) from rfl,
      ih ys]
    by_cases h : dropTrail p ys = []
    · rw [if_pos h, if_pos h]
      rfl
    · rw [if_neg h, if_neg h,
        if_neg (show ¬((decide (cs ++ dropTrail p ys = []) && p c) = true) by
          simp [List.append_eq_nil, h]),
        List.cons_append]

/-- A single-space join of non-empty tokens is non-empty. -/
lemma joinSp_ne_nil : ∀ (g : List Char) (gs : List (List Char)),
    g ≠ [] → joinSp (g :: gs) ≠ [] := by
  intro g gs hg
  cases gs with
  | nil => simpa using hg
  | cons g2 gs2 =>
    rw [show joinSp (g :: g2 :: gs2) = g ++ ' ' :: joinSp (g2 :: gs2) from rfl]
    simp

/-- A single-space join of whitespace-free non-empty tokens has no trailing
whitespace. -/
lemma dropTrail_joinSp :
    ∀ gs : List (List Char), (∀ g ∈ gs, g ≠ [] ∧ ∀ c ∈ g, isPySpace c = false) →
      dropTrail isPySpace (joinSp gs) = joinSp gs := by
  intro gs
  induction gs with
  | nil => intro _; rfl
  | cons g gs2 ih =>
    intro h
    have hg := h g (List.mem_cons_self g gs2)
    have hgs : ∀ x ∈ gs2, x ≠ [] ∧ ∀ c ∈ x, isPySpace c = false :=
      fun x hx => h x (List.mem_cons_of_mem g hx)
    cases gs2 with
    | nil => exact dropTrail_of_none _ _ hg.2
    | cons g2 gs3 =>
      rw [show joinSp (g :: g2 :: gs3) = g ++ ' ' :: joinSp (g2 :: gs3) from rfl,
        dropTrail_append]
      have h2 : dropTrail isPySpace (' ' :: joinSp (g2 :: gs3)) =
          ' ' :: joinSp (g2 :: gs3) := by
        rw [show dropTrail isPySpace (' ' :: joinSp (g2 :: gs3)) =
          (if dropTrail isPySpace (joinSp (g2 :: gs3)) = [] && isPySpace ' '
           then [] else ' ' :: dropTrail isPySpace (joinSp (g2 :: gs3))) from rfl,
          ih hgs,
          if_neg (by
            simp [joinSp_ne_nil g2 gs3 (hgs g2 (List.mem_cons_self g2 gs3)).1])]
      rw [h2, if_neg (by simp)]

/-- A single-space join of whitespace-free non-empty tokens is already
whitespace-stripped. -/
lemma pyStrip_joinSp (gs : List (List Char))
    (h : ∀ g ∈ gs, g ≠ [] ∧ ∀ c ∈ g, isPySpace c = false) :
    pyStrip (joinSp gs) = joinSp gs := by
  unfold pyStrip
  have hdw : (joinSp gs).dropWhile isPySpace = joinSp gs := by
    cases gs with
    | nil => rfl
    | cons g gs2 =>
      obtain ⟨hgne, hgws⟩ := h g (List.mem_cons_self g gs2)
      rcases g with _ | ⟨c, g2⟩
      · exact absurd rfl hgne
      · have hc : isPySpace c = false := hgws c (List.mem_cons_self c g2)
        have hshape : ∃ rest, joinSp ((c :: g2) :: gs2) = c :: rest := by
          cases gs2 with
          | nil => exact ⟨g2, rfl⟩
          | cons g3 gs3 =>
            refine ⟨g2 ++ ' ' :: joinSp (g3 :: gs3), ?_⟩
            rw [show joinSp ((c :: g2) :: g3 :: gs3) =
              (c :: g2) ++ ' ' :: joinSp (g3 :: gs3) from rfl, List.cons_append]
        obtain ⟨rest, hrest⟩ := hshape
        rw [hrest, List.dropWhile_cons, if_neg (by simp [hc])]
  rw [hdw, dropTrail_joinSp gs h]

/-- Scanning a whitespace-free token inside the whitespace splitter just
transfers it into the accumulator. -/
lemma pySplitGo_token (t : List Char) :
    ∀ (cs acc : List Char), (∀ c ∈ t, isPySpace c = false) →
      pySplitGo (t ++ cs) acc = pySplitGo cs (t.reverse ++ acc) := by
  induction t with
  | nil => intro cs acc _; simp
  | cons c t2 ih =>
    intro cs acc h
    have hc : isPySpace c = false := h c (List.mem_cons_self c t2)
    have ht2 : ∀ x ∈ t2, isPySpace x = false := fun x hx => h x (List.mem_cons_of_mem c hx)
    rw [List.cons_append,
      show pySplitGo (c :: (t2 ++ cs)) acc =
        (if isPySpace c then
          (if acc = [] then pySplitGo (t2 ++ cs) [] else acc.reverse :: pySplitGo (t2 ++ cs) [])
        else pySplitGo (t2 ++ cs) (c :: acc)) from rfl,
      if_neg (by simp [hc]), ih cs (c :: acc) ht2, List.reverse_cons, List.append_assoc,
      List.singleton_append]

/-- The whitespace splitter recovers the tokens of a single-space join of
non-empty whitespace-free tokens. -/
lemma pySplit_joinSp :
    ∀ gs : List (List Char), (∀ g ∈ gs, g ≠ [] ∧ ∀ c ∈ g, isPySpace c = false) →
      pySplit (joinSp gs) = gs := by
  intro gs
  induction gs with
  | nil => intro _; rfl
  | cons g gs2 ih =>
    intro h
    have hg := h g (List.mem_cons_self g gs2)
    have hgs : ∀ x ∈ gs2, x ≠ [] ∧ ∀ c ∈ x, isPySpace c = false :=
      fun x hx => h x (List.mem_cons_of_mem g hx)
    unfold pySplit
    cases gs2 with
    | nil =>
      have h0 := pySplitGo_token g [] [] hg.2
      rw [List.append_nil, List.append_nil] at h0
      rw [show joinSp [g] = g from rfl, h0]
      show (if g.reverse = [] then ([] : List (List Char)) else [g.reverse.reverse]) = [g]
      rw [if_neg (by simp [hg.1]), List.reverse_reverse]
    | cons g2 gs3 =>
      rw [show joinSp (g :: g2 :: gs3) = g ++ ' ' :: joinSp (g2 :: gs3) from rfl,
        pySplitGo_token g (' ' :: joinSp (g2 :: gs3)) [] hg.2, List.append_nil]
      show (if isPySpace ' ' then
        (if g.reverse = [] then pySplitGo (joinSp (g2 :: gs3)) []
         else g.reverse.reverse :: pySplitGo (joinSp (g2 :: gs3)) [])
       else pySplitGo (joinSp (g2 :: gs3)) (' ' :: g.reverse)) = g :: g2 :: gs3
      rw [if_pos (by decide), if_neg (by simp [hg.1]), List.reverse_reverse]
      have := ih hgs
      unfold pySplit at this
      rw [this]

/-- The `key=value` group of one option, without the trailing space. -/
def groupCore (kv : List Char × List Char) : List Char :=
  kv.1 ++ '=' :: replaceChar ' ' ',' kv.2

/-- Concatenation of the option groups, each followed by one space. -/
def concatGroups : List (List Char × List Char) → List Char
  | [] => []
  | kv :: m => groupCore kv ++ [' '] ++ concatGroups m

/-- The encoder fold is the group concatenation when no value is empty. -/
lemma legacyOptionsOf_concat :
    ∀ (m : List (List Char × List Char)) (acc : List Char),
      (∀ kv ∈ m, kv.2 ≠ []) →
      m.foldl
        (fun acc kv =>
          if kv.2 ≠ [] then acc ++ kv.1 ++ '=' :: replaceChar ' ' ',' kv.2 ++ [' ']
          else acc) acc
        = acc ++ concatGroups m := by
  intro m
  induction m with
  | nil => intro acc _; simp [concatGroups]
  | cons kv m2 ih =>
    intro acc h
    have hv : kv.2 ≠ [] := h kv (List.mem_cons_self kv m2)
    have hm2 : ∀ x ∈ m2, x.2 ≠ [] := fun x hx => h x (List.mem_cons_of_mem kv hx)
    rw [List.foldl_cons, if_pos hv, ih _ hm2,
      show concatGroups (kv :: m2) = groupCore kv ++ [' '] ++ concatGroups m2 from rfl]
    unfold groupCore
    simp [List.append_assoc]

/-- The group concatenation of a non-empty mapping is the single-space join
of the groups followed by one trailing space. -/
lemma concatGroups_joinSp :
    ∀ (m : List (List Char × List Char)) (kv : List Char × List Char),
      concatGroups (kv :: m) = joinSp ((kv :: m).map groupCore) ++ [' '] := by
  intro m
  induction m with
  | nil =>
    intro kv
    rw [show concatGroups [kv] = groupCore kv ++ [' '] ++ concatGroups [] from rfl]
    simp [concatGroups, joinSp]
  | cons kv2 m2 ih =>
    intro kv
    rw [show concatGroups (kv :: kv2 :: m2) =
      groupCore kv ++ [' '] ++ concatGroups (kv2 :: m2) from rfl, ih kv2,
      show (kv :: kv2 :: m2).map groupCore =
        groupCore kv :: (kv2 :: m2).map groupCore from rfl,
      show joinSp (groupCore kv :: (kv2 :: m2).map groupCore) =
        groupCore kv ++ ' ' :: joinSp ((kv2 :: m2).map groupCore) from (by
          rcases hm : (kv2 :: m2).map groupCore with _ | ⟨a, b⟩
          · exact absurd hm (by simp)
          · rfl)]
    simp [List.append_assoc]

/-- A successful association-list lookup locates a member pair. -/
lemma alookup_mem {β : Type} :
    ∀ (xs : List (List Char × β)) (k : List Char) (v : β),
      alookup xs k = some v → (k, v) ∈ xs := by
  intro xs
  induction xs with
  | nil => intro k v h; exact absurd h (by simp [alookup])
  | cons a t ih =>
    intro k v h
    rw [show alookup (a :: t) k = (if k = a.1 then some a.2 else alookup t k) from (by
      rcases a with ⟨a1, a2⟩; rfl)] at h
    by_cases hk : k = a.1
    · rw [if_pos hk] at h
      injection h with h1
      rcases a with ⟨a1, a2⟩
      rw [hk, ← h1]
      exact List.mem_cons_self _ _
    · rw [if_neg hk] at h
      exact List.mem_cons_of_mem a (ih k v h)

/-- Structural facts about the short option keys: non-empty, and free of
whitespace and equals signs. -/
lemma options_d_key_props :
    ∀ kv ∈ ParseDeb.options_d,
      kv.1 ≠ [] ∧ ∀ c ∈ kv.1, isPySpace c = false ∧ c ≠ '=' := by
  decide

/-- The short-to-long option table maps distinct short keys to distinct
long keys. -/
lemma options_d_inj :
    ∀ p ∈ ParseDeb.options_d, ∀ q ∈ ParseDeb.options_d, p.2 = q.2 → p.1 = q.1 := by
  decide

/-- Assigning a fresh key into a Python dictionary appends it. -/
lemma dictSet_append {m : List (List Char × List Char)} {k v : List Char}
    (h : ∀ p ∈ m, p.1 ≠ k) : dictSet m k v = m ++ [(k, v)] := by
  unfold dictSet
  rw [if_neg ?_]
  intro hc
  rw [List.any_eq_true] at hc
  obtain ⟨p, hp, hpk⟩ := hc
  exact h p hp (by simpa using hpk)

/-- The canonical long name of a short option key (identity off the table). -/
def longKey (k : List Char) : List Char :=
  (alookup ParseDeb.options_d k).getD k

/-- A successful iteration of the option loop body: a well-formed
`key=values` group whose key maps through the table. -/
lemma parseOptionsStep_eq (opt : List Char) (acc : List (List Char × List Char))
    (lastKey : Option (List Char)) (pre_key values K : List Char)
    (hsplit : splitOnChar '=' opt = [pre_key, values])
    (hK : alookup ParseDeb.options_d pre_key = some K) :
    parseOptionsStep opt acc lastKey =
      .ok (dictSet acc K (joinSp (splitOnChar ',' values)), some K) := by
  unfold parseOptionsStep
  rw [hsplit]
  show (match alookup ParseDeb.options_d pre_key with
    | some key => Except.ok (dictSet acc key (joinSp (splitOnChar ',' values)), some key)
    | none =>
      match lastKey with
      | some k => Except.error (PErr.optionNotValid k)
      | none => Except.error PErr.unboundLocalError) =
    Except.ok (dictSet acc K (joinSp (splitOnChar ',' values)), some K)
  rw [hK]

/-- Unfolding of one option-loop iteration. -/
lemma parseOptionsGo_cons (opt : List Char) (rest : List (List Char))
    (acc : List (List Char × List Char)) (lastKey : Option (List Char)) :
    parseOptionsGo (opt :: rest) acc lastKey =
      match parseOptionsStep opt acc lastKey with
      | .ok (acc2, key2) => parseOptionsGo rest acc2 key2
      | .error e => .error e := rfl

/-- The option loop decodes the rendered groups of a well-formed mapping
into the long-keyed mapping, appended to the accumulator. -/
lemma parseOptionsGo_spec :
    ∀ (m : List (List Char × List Char)) (acc : List (List Char × List Char))
      (lastKey : Option (List Char)),
      (∀ kv ∈ m, (alookup ParseDeb.options_d kv.1).isSome ∧ kv.2 ≠ [] ∧
        ∀ c ∈ kv.2, c ≠ ',' ∧ c ≠ '=' ∧ (isPySpace c = true → c = ' ')) →
      (m.map fun kv => longKey kv.1).Nodup →
      (∀ kv ∈ m, ∀ p ∈ acc, p.1 ≠ longKey kv.1) →
      parseOptionsGo (m.map groupCore) acc lastKey =
        .ok (acc ++ m.map fun kv => (longKey kv.1, kv.2)) := by
  intro m
  induction m with
  | nil =>
    intro acc lastKey _ _ _
    rw [List.map_nil, List.map_nil, List.append_nil]
    rfl
  | cons kv m2 ih =>
    intro acc lastKey hall hnod hdisj
    obtain ⟨hsome, hvne, hvc⟩ := hall kv (List.mem_cons_self kv m2)
    obtain ⟨K, hK⟩ : ∃ K, alookup ParseDeb.options_d kv.1 = some K := by
      rcases hx : alookup ParseDeb.options_d kv.1 with _ | K
      · rw [hx] at hsome; exact absurd hsome (by simp)
      · exact ⟨K, rfl⟩
    have hlk : longKey kv.1 = K := by unfold longKey; rw [hK]; rfl
    have hkmem := alookup_mem _ _ _ hK
    have hkprops := options_d_key_props _ hkmem
    have hkeq : ∀ c ∈ kv.1, c ≠ '=' := fun c hc => (hkprops.2 c hc).2
    have hrveq : ∀ c ∈ replaceChar ' ' ',' kv.2, c ≠ '=' := by
      intro c hc
      rcases mem_replaceChar hc with h1 | h1
      · rw [h1]; decide
      · exact (hvc c h1.1).2.1
    have hsplit : splitOnChar '=' (groupCore kv) = [kv.1, replaceChar ' ' ',' kv.2] := by
      unfold groupCore
      rw [splitOnChar_mid '=' kv.1 (replaceChar ' ' ',' kv.2) hkeq,
        splitOnChar_no_sep '=' (replaceChar ' ' ',' kv.2) hrveq]
    have hval : joinSp (splitOnChar ',' (replaceChar ' ' ',' kv.2)) = kv.2 :=
      joinSp_splitComma_replace kv.2 (fun c hc => (hvc c hc).1)
    have hfresh : ∀ p ∈ acc, p.1 ≠ K := by
      intro p hp
      rw [← hlk]
      exact hdisj kv (List.mem_cons_self kv m2) p hp
    rw [List.map_cons, parseOptionsGo_cons,
      parseOptionsStep_eq (groupCore kv) acc lastKey kv.1 (replaceChar ' ' ',' kv.2) K
        hsplit hK]
    show parseOptionsGo (m2.map groupCore)
      (dictSet acc K (joinSp (splitOnChar ',' (replaceChar ' ' ',' kv.2)))) (some K) = _
    rw [hval, dictSet_append hfresh]
    have hnod2 : (m2.map fun kv => longKey kv.1).Nodup := by
      rw [List.map_cons] at hnod
      exact (List.nodup_cons.mp hnod).2
    have hhead : (longKey kv.1) ∉ m2.map fun kv => longKey kv.1 := by
      rw [List.map_cons] at hnod
      exact (List.nodup_cons.mp hnod).1
    have hdisj2 : ∀ kw ∈ m2, ∀ p ∈ acc ++ [(K, kv.2)], p.1 ≠ longKey kw.1 := by
      intro kw hkw p hp
      rcases List.mem_append.mp hp with h1 | h1
      · exact hdisj kw (List.mem_cons_of_mem kv hkw) p h1
      · have hpk : p = (K, kv.2) := by simpa using h1
        rw [hpk]
        show K ≠ longKey kw.1
        intro hcon
        refine hhead ?_
        rw [hlk, hcon]
        exact List.mem_map_of_mem _ hkw
    rw [ih (acc ++ [(K, kv.2)]) (some K)
      (fun x hx => hall x (List.mem_cons_of_mem kv hx)) hnod2 hdisj2]
    rw [List.map_cons, hlk]
    simp [List.append_assoc]

/-- C5 (amended): decoding the encoded bracketed option string of a
well-formed short-keyed mapping yields the mapping with each short key
replaced by its canonical long field name; the values (non-empty,
comma-free, equals-free, with spaces as the only whitespace) are preserved. -/
theorem c5_option_codec_maps_keys :
    ∀ m : List (List Char × List Char),
      (m.map fun kv => kv.1).Nodup →
      (∀ kv ∈ m, (alookup ParseDeb.options_d kv.1).isSome ∧ kv.2 ≠ [] ∧
        ∀ c ∈ kv.2, c ≠ ',' ∧ c ≠ '=' ∧ (isPySpace c = true → c = ' ')) →
      parse_options (legacyOptionsBracketed m) =
        .ok (m.map fun kv => (longKey kv.1, kv.2)) := by
  intro m hnod hall
  have hnodL : (m.map fun kv => longKey kv.1).Nodup := by
    have hmm : (m.map fun kv => kv.1).map longKey = m.map fun kv => longKey kv.1 := by
      rw [List.map_map]
      rfl
    rw [← hmm]
    refine List.Nodup.map_on ?_ hnod
    intro x hx y hy hxy
    obtain ⟨kx, hkx, hkx2⟩ := List.mem_map.mp hx
    obtain ⟨ky, hky, hky2⟩ := List.mem_map.mp hy
    have hxs : (alookup ParseDeb.options_d x).isSome := by
      rw [← hkx2]; exact (hall kx hkx).1
    have hys : (alookup ParseDeb.options_d y).isSome := by
      rw [← hky2]; exact (hall ky hky).1
    obtain ⟨KX, hKX⟩ : ∃ K, alookup ParseDeb.options_d x = some K := by
      rcases hx2 : alookup ParseDeb.options_d x with _ | K
      · rw [hx2] at hxs; exact absurd hxs (by simp)
      · exact ⟨K, rfl⟩
    obtain ⟨KY, hKY⟩ : ∃ K, alookup ParseDeb.options_d y = some K := by
      rcases hy2 : alookup ParseDeb.options_d y with _ | K
      · rw [hy2] at hys; exact absurd hys (by simp)
      · exact ⟨K, rfl⟩
    have e1 : longKey x = KX := by unfold longKey; rw [hKX]; rfl
    have e2 : longKey y = KY := by unfold longKey; rw [hKY]; rfl
    have eKK : KX = KY := by rw [← e1, ← e2, hxy]
    have := options_d_inj (x, KX) (alookup_mem _ _ _ hKX) (y, KY) (alookup_mem _ _ _ hKY)
      (by simpa using eKK)
    simpa using this
  cases m with
  | nil => decide
  | cons kv0 m2 =>
    have hvals : ∀ x ∈ kv0 :: m2, x.2 ≠ [] := fun x hx => (hall x hx).2.1
    have hgprops : ∀ g ∈ (kv0 :: m2).map groupCore,
        g ≠ [] ∧ ∀ c ∈ g, isPySpace c = false := by
      intro g hg
      obtain ⟨kv, hkv, hgc⟩ := List.mem_map.mp hg
      rw [← hgc]
      constructor
      · unfold groupCore
        simp [List.append_eq_nil]
      · intro c hc
        unfold groupCore at hc
        rcases List.mem_append.mp hc with h1 | h1
        · obtain ⟨K, hK⟩ : ∃ K, alookup ParseDeb.options_d kv.1 = some K := by
            have hsome := (hall kv hkv).1
            rcases hx2 : alookup ParseDeb.options_d kv.1 with _ | K
            · rw [hx2] at hsome; exact absurd hsome (by simp)
            · exact ⟨K, rfl⟩
          exact ((options_d_key_props _ (alookup_mem _ _ _ hK)).2 c h1).1
        · rcases List.mem_cons.mp h1 with h2 | h2
          · rw [h2]; decide
          · rcases mem_replaceChar h2 with h3 | h3
            · rw [h3]; decide
            · rcases (hall kv hkv).2.2 c h3.1 with ⟨_, _, hws⟩
              by_cases hw : isPySpace c = true
              · exact absurd (hws hw) h3.2
              · exact Bool.eq_false_iff.mpr hw
    have hs : legacyOptionsOf (kv0 :: m2) =
        joinSp ((kv0 :: m2).map groupCore) ++ [' '] := by
      unfold legacyOptionsOf
      rw [legacyOptionsOf_concat (kv0 :: m2) [] hvals, List.nil_append,
        concatGroups_joinSp]
    have henc : legacyOptionsBracketed (kv0 :: m2) =
        '[' :: joinSp ((kv0 :: m2).map groupCore) ++ [']'] := by
      unfold legacyOptionsBracketed
      rw [hs, if_neg (by simp)]
      have hps : pyStrip ('[' :: (joinSp ((kv0 :: m2).map groupCore) ++ [' '])) =
          '[' :: joinSp ((kv0 :: m2).map groupCore) := by
        unfold pyStrip
        rw [List.dropWhile_cons, if_neg (by decide),
          show ('[' :: (joinSp ((kv0 :: m2).map groupCore) ++ [' '])) =
            ('[' :: joinSp ((kv0 :: m2).map groupCore)) ++ [' '] from by
              rw [List.cons_append],
          dropTrail_append,
          show dropTrail isPySpace [' '] = [] from by decide, if_pos rfl,
          show dropTrail isPySpace ('[' :: joinSp ((kv0 :: m2).map groupCore)) =
            (if dropTrail isPySpace (joinSp ((kv0 :: m2).map groupCore)) = [] && isPySpace '['
             then [] else '[' :: dropTrail isPySpace (joinSp ((kv0 :: m2).map groupCore)))
            from rfl,
          dropTrail_joinSp _ hgprops,
          if_neg (by rw [show isPySpace '[' = false from by decide]; simp)]
      rw [hps]
    rw [henc]
    show parseOptionsGo
      (pySplit (pyStrip (pySlice1m1 (pyStrip
        ('[' :: joinSp ((kv0 :: m2).map groupCore) ++ [']'])))))
      [] none = _
    have h1 : pyStrip ('[' :: joinSp ((kv0 :: m2).map groupCore) ++ [']']) =
        '[' :: joinSp ((kv0 :: m2).map groupCore) ++ [']'] := by
      unfold pyStrip
      rw [List.cons_append, List.dropWhile_cons, if_neg (by decide), ← List.cons_append,
        dropTrail_append,
        show dropTrail isPySpace [']'] = [']'] from by decide,
        if_neg (by simp)]
    have h2 : pySlice1m1 ('[' :: joinSp ((kv0 :: m2).map groupCore) ++ [']']) =
        joinSp ((kv0 :: m2).map groupCore) := by
      unfold pySlice1m1
      rw [if_neg (by simp), List.cons_append,
        show (('[' :: (joinSp ((kv0 :: m2).map groupCore) ++ [']'])).drop 1) =
          joinSp ((kv0 :: m2).map groupCore) ++ [']'] from rfl]
      exact List.dropLast_concat
    rw [h1, h2, pyStrip_joinSp _ hgprops, pySplit_joinSp _ hgprops]
    exact parseOptionsGo_spec (kv0 :: m2) [] none hall hnodL
      (by intro kv _ p hp; exact absurd hp (List.not_mem_nil p))

/-- Counterexample to C5 as stated: decoding the encoding of the mapping
with short key `arch` yields the long-keyed mapping `Architectures`, not
the original mapping. -/
theorem c5_codec_not_identity :
    parse_options (legacyOptionsBracketed [(str "arch", str "amd64")]) =
      .ok [(str "Architectures", str "amd64")] ∧
    [(str "Architectures", str "amd64")] ≠ [(str "arch", str "amd64")] := by
  decide

/-- Witness for C5 (amended) at a two-key mapping with a space-separated
value, exercising the comma codec. -/
theorem c5_witness :
    parse_options
      (legacyOptionsBracketed [(str "arch", str "amd64 armel"), (str "lang", str "en")]) =
      .ok [(str "Architectures", str "amd64 armel"), (str "Languages", str "en")] :=
  c5_option_codec_maps_keys [(str "arch", str "amd64 armel"), (str "lang", str "en")]
    (by decide) (by decide)
